import Mathlib

/-!
Shallow embedding of the `san-sdk` change/moving-average module
(`tools/building_derivative_metrics/change_functions.py`) and of the chunked
fetch helper (`ICDM_2019/utils.py`), together with theorems settling the
specification claims about them.

Modelling conventions:
* a pandas value is `Option ℚ` (`none` = `NaN`/missing);
* a positionally-indexed series is `List (Option ℚ)`;
* a time-indexed series is `List (ℚ × Option ℚ)`, timestamps in hours;
* pandas elementwise comparisons on `NaN` follow IEEE: `NaN == 0` is false,
  `NaN != 0` is true;
* sequential masked assignments `result[mask] = v` are modelled by a chain of
  conditional overwrites in source order, so a later mask overwrites an
  earlier one exactly as in pandas;
* for the time-shifted series in `compute_moving_average_change`, a label that
  is absent from the shifted index (after alignment) is an outer `none` of
  type `Option (Option ℚ)`, while a present-but-`NaN` entry is `some none`.
-/

set_option maxHeartbeats 1000000

namespace SanSdk

/-- A positionally-indexed series of float-or-missing values (a pandas Series). -/
abbrev Series := List (Option ℚ)

/-- A time-indexed series: (timestamp in hours, value-or-missing) pairs. -/
abbrev TSeries := List (ℚ × Option ℚ)

/-- Elementwise `x == 0` as pandas evaluates it: `NaN == 0` is `False`. -/
def pdEqZero : Option ℚ → Bool
  | some x => decide (x = 0)
  | none => false

/-- Elementwise `x != 0` as pandas evaluates it: `NaN != 0` is `True`. -/
def pdNeZero : Option ℚ → Bool
  | some x => decide (x ≠ 0)
  | none => true

/-- `series.shift(p)` read at position `i`: the value `p` positions back,
missing for the first `p` positions. -/
def shiftOld (s : Series) (p : ℕ) (i : ℕ) : Option ℚ :=
  if p ≤ i then s.getD (i - p) none else none

/-- One position of `compute_nd_change`: the masked assignments of the source
applied in source order.  In this implementation `both_zero` and
`old_zero_new_nonzero` carry an explicit `~both_nan` conjunct. -/
def ndChangeElem (old_value value : Option ℚ) : Option ℚ :=
  let both_nan := old_value.isNone || value.isNone
  let both_zero := (pdEqZero old_value && pdEqZero value) && !both_nan
  let old_zero_new_nonzero := (pdEqZero old_value && pdNeZero value) && !both_nan
  let normal_case := !both_nan && !both_zero && !old_zero_new_nonzero
  let r : Option ℚ := none
  let r := if both_nan then none else r
  let r := if both_zero then some 0 else r
  let r := if old_zero_new_nonzero then some 1 else r
  if normal_case then
    match value, old_value with
    | some v, some o => some (v / o - 1)
    | _, _ => none
  else r

/-- `compute_nd_change(series, days)` from the source: masked-assignment
n-period change. -/
def compute_nd_change (series : Series) (days : ℕ) : Series :=
  (List.range series.length).map fun i =>
    ndChangeElem (shiftOld series days i) (series.getD i none)

/-- One position of `compute_nd_change_vectorized`: identical masks except that
`both_zero` and `old_zero_new_nonzero` do NOT carry the `~both_nan` guard, and
the masked assignments are applied in source order (later assignments
overwrite earlier ones). -/
def ndChangeVecElem (old_value value : Option ℚ) : Option ℚ :=
  let both_nan := old_value.isNone || value.isNone
  let both_zero := pdEqZero old_value && pdEqZero value
  let old_zero_new_nonzero := pdEqZero old_value && pdNeZero value
  let normal_case := !both_nan && !both_zero && !old_zero_new_nonzero
  let r : Option ℚ := none
  let r := if both_nan then none else r
  let r := if both_zero then some 0 else r
  let r := if old_zero_new_nonzero then some 1 else r
  if normal_case then
    match value, old_value with
    | some v, some o => some (v / o - 1)
    | _, _ => none
  else r

/-- `compute_nd_change_vectorized(series, days)` from the source. -/
def compute_nd_change_vectorized (series : Series) (days : ℕ) : Series :=
  (List.range series.length).map fun i =>
    ndChangeVecElem (shiftOld series days i) (series.getD i none)

/-- One position of `compute_nd_change_numpy`: masks carry `~both_nan`, and
`normal_case` additionally requires `old_values != 0`. -/
def ndChangeNumpyElem (old_values current_values : Option ℚ) : Option ℚ :=
  let both_nan := old_values.isNone || current_values.isNone
  let both_zero := (pdEqZero old_values && pdEqZero current_values) && !both_nan
  let old_zero_new_nonzero := (pdEqZero old_values && pdNeZero current_values) && !both_nan
  let normal_case :=
    !both_nan && !both_zero && !old_zero_new_nonzero && pdNeZero old_values
  let r : Option ℚ := none
  let r := if both_nan then none else r
  let r := if both_zero then some 0 else r
  let r := if old_zero_new_nonzero then some 1 else r
  if normal_case then
    match current_values, old_values with
    | some v, some o => some (v / o - 1)
    | _, _ => none
  else r

/-- `compute_nd_change_numpy(values, n_periods)` from the source, including the
special cases for empty input and for `n_periods >= len(values)`. -/
def compute_nd_change_numpy (values : Series) (n_periods : ℕ) : Series :=
  if values.length = 0 then []
  else if values.length ≤ n_periods then List.replicate values.length none
  else
    (List.range values.length).map fun i =>
      ndChangeNumpyElem (shiftOld values n_periods i) (values.getD i none)

/-- `compute_moving_average(series, hours, min_periods)` from the source:
pandas time-based rolling mean.  For a monotone `DatetimeIndex`, pandas takes
at row `i` the trailing rows whose timestamp lies in `(t_i - hours, t_i]`
(offset windows are right-closed, left-open), averages their non-`NaN` values,
and emits `NaN` when fewer than `min_periods` non-`NaN` values are present. -/
def compute_moving_average (series : TSeries) (hours : ℚ) (min_periods : ℕ) : Series :=
  (List.range series.length).map fun i =>
    let ti := (series.getD i (0, none)).1
    let window := (series.take (i + 1)).filter fun p => decide (ti - hours < p.1)
    let vals := window.filterMap Prod.snd
    if min_periods ≤ vals.length then some (vals.sum / (vals.length : ℚ)) else none

/-- The `old_ma == 0` elementwise test after index alignment: a label absent
from the shifted series contributes `False`. -/
def oldIsZero : Option (Option ℚ) → Bool
  | some ov => pdEqZero ov
  | none => false

/-- The `pd.isna(old_ma)` elementwise test after index alignment: a label
absent from the shifted series contributes `False` to the boolean `or`. -/
def oldIsNan : Option (Option ℚ) → Bool
  | some ov => ov.isNone
  | none => false

/-- The final combination step of `compute_moving_average_change`: the same
mask/assignment sequence as `compute_nd_change_vectorized`, with the old value
possibly absent from the aligned index (outer `none`), in which case the
division under `normal_case` aligns to `NaN`. -/
def combineChange (old_ma : Option (Option ℚ)) (ma : Option ℚ) : Option ℚ :=
  let both_nan := ma.isNone || oldIsNan old_ma
  let both_zero := oldIsZero old_ma && pdEqZero ma
  let old_zero_new_nonzero := oldIsZero old_ma && pdNeZero ma
  let normal_case := !both_nan && !both_zero && !old_zero_new_nonzero
  let r : Option ℚ := none
  let r := if both_nan then none else r
  let r := if both_zero then some 0 else r
  let r := if old_zero_new_nonzero then some 1 else r
  if normal_case then
    match old_ma, ma with
    | some (some o), some v => some (v / o - 1)
    | _, _ => none
  else r

/-- `compute_moving_average_change(series, hours, change_period_hours)` from
the source.  `freq` models `ma.index.freq` (sampling interval in seconds,
`none` for an irregular index).  With a frequency the code shifts positionally
by `int(change_period_hours * 3600 / freq_seconds)` periods; without one it
shifts the index by the wall-clock delta, so the old value at a timestamp `t`
is the moving average at exactly `t - change_period_hours` when that timestamp
is in the index, and absent otherwise. -/
def compute_moving_average_change (series : TSeries) (hours : ℚ)
    (change_period_hours : ℚ) (freq : Option ℚ) : Series :=
  let ma := compute_moving_average series hours 1
  let ts := series.map Prod.fst
  match freq with
  | some freq_seconds =>
    let periods := (⌊change_period_hours * 3600 / freq_seconds⌋).toNat
    (List.range ma.length).map fun i =>
      combineChange (some (if periods ≤ i then ma.getD (i - periods) none else none))
        (ma.getD i none)
  | none =>
    (List.range ma.length).map fun i =>
      combineChange
        (((ts.zip ma).find? fun p =>
            decide (p.1 = ts.getD i 0 - change_period_hours)).map Prod.snd)
        (ma.getD i none)

/-- The chunk date ranges issued by `get_san_metric(start, end, ...)` from
`ICDM_2019/utils.py`, with dates as integer day numbers: the loop runs
`int(np.ceil((end - start).days / iterate_over_days))` times and chunk `i`
requests `[start + L*i, min(end, start + L*(i+1) - 1)]`. -/
def chunkRanges (startD endD L : ℤ) : List (ℤ × ℤ) :=
  let n := (⌈(((endD - startD : ℤ) : ℚ) / (L : ℚ))⌉).toNat
  (List.range n).map fun i =>
    (startD + L * (i : ℤ), min endD (startD + L * ((i : ℤ) + 1) - 1))

/-! ### Claim-side (specification) definitions -/

/-- The 4-rule change policy exactly as the specification states it, first
matching rule wins: missing if either side is missing; `0` if both are zero;
`1` if old is zero and new is not; else `new/old - 1`. -/
def ndRuleSpec : Option ℚ → Option ℚ → Option ℚ
  | none, _ => none
  | some _, none => none
  | some o, some v =>
    if o = 0 ∧ v = 0 then some 0
    else if o = 0 ∧ v ≠ 0 then some 1
    else some (v / o - 1)

/-- The moving-average value at position `i` as the specification words it:
the mean of the non-missing values whose timestamps lie anywhere in the
half-open trailing window `(t_i - hours, t_i]`, or missing when fewer than
`min_periods` such values exist. -/
def maSpecAt (series : TSeries) (hours : ℚ) (min_periods : ℕ) (i : ℕ) : Option ℚ :=
  let ti := (series.getD i (0, none)).1
  let vals :=
    (series.filter fun p => decide (ti - hours < p.1 ∧ p.1 ≤ ti)).filterMap Prod.snd
  if min_periods ≤ vals.length then some (vals.sum / (vals.length : ℚ)) else none

/-- The change-combination policy as the vectorized code actually behaves,
written as a first-match cascade: old missing gives missing; old `0` with new
missing or nonzero gives `1`; both zero gives `0`; old nonzero with new
missing gives missing; otherwise the ratio minus one. -/
def changeCascade : Option ℚ → Option ℚ → Option ℚ
  | none, _ => none
  | some o, none => if o = 0 then some 1 else none
  | some o, some v =>
    if o = 0 then (if v = 0 then some 0 else some 1) else some (v / o - 1)

/-- The value of a parallel series at exactly timestamp `t`, missing when `t`
is not one of the listed timestamps. -/
def exactAt (ts : List ℚ) (vals : Series) (t : ℚ) : Option ℚ :=
  match ts, vals with
  | t0 :: ts1, v0 :: vs1 => if t0 = t then v0 else exactAt ts1 vs1 t
  | _, _ => none

/-- The amended description of the irregular-index branch of
`compute_moving_average_change`: old is the moving-average value at exactly
`t - change_period_hours` when that timestamp is present in the index (missing
otherwise), combined with the current moving average by the cascade policy. -/
def maChangeIrregularSpec (series : TSeries) (hours change_period_hours : ℚ) : Series :=
  let ma := compute_moving_average series hours 1
  let ts := series.map Prod.fst
  (List.range series.length).map fun i =>
    changeCascade (exactAt ts ma (ts.getD i 0 - change_period_hours)) (ma.getD i none)

/-- The last value whose timestamp is at or before `t` (an as-of lookup),
missing when no timestamp is at or before `t` or the found value is missing. -/
def asofLookup (ts : List ℚ) (vals : Series) (t : ℚ) : Option ℚ :=
  (((ts.zip vals).filter fun p => decide (p.1 ≤ t)).getLast?).bind Prod.snd

/-- The claim's description of `compute_moving_average_change` on an irregular
index: old is the moving-average value nearest-at-or-before
`t - change_period_hours`, combined with the current value by the 4-rule
policy. -/
def maChangeAsofClaim (series : TSeries) (hours change_period_hours : ℚ) : Series :=
  let ma := compute_moving_average series hours 1
  let ts := series.map Prod.fst
  (List.range series.length).map fun i =>
    ndRuleSpec (asofLookup ts ma (ts.getD i 0 - change_period_hours)) (ma.getD i none)

/-! ### Helper lemmas -/

theorem getD_map_range {α : Type} (f : ℕ → α) (d : α) {n i : ℕ} (hi : i < n) :
    ((List.range n).map f).getD i d = f i := by
  rw [List.getD_eq_getElem?_getD, List.getElem?_map, List.getElem?_range hi]
  rfl

theorem getD_of_length_le {α : Type} (l : List α) (d : α) {i : ℕ}
    (hi : l.length ≤ i) : l.getD i d = d := by
  rw [List.getD_eq_getElem?_getD, List.getElem?_eq_none hi, Option.getD_none]

/-- The masked implementation of `compute_nd_change` realises the 4-rule
policy of the specification at every pair of inputs. -/
theorem ndChangeElem_eq_ruleSpec (o v : Option ℚ) :
    ndChangeElem o v = ndRuleSpec o v := by
  rcases o with _ | o <;> rcases v with _ | v <;>
    simp only [ndChangeElem, ndRuleSpec, pdEqZero, pdNeZero, Option.isNone_none,
      Option.isNone_some, Bool.true_or, Bool.or_true, Bool.or_false,
      Bool.false_or, Bool.and_true, Bool.and_false, Bool.true_and,
      Bool.false_and, Bool.not_true, Bool.not_false, if_true, if_false] <;>
    try rfl
  by_cases ho : o = 0 <;> by_cases hv : v = 0 <;> simp [ho, hv]

/-- The numpy implementation also realises the 4-rule policy. -/
theorem ndChangeNumpyElem_eq_ruleSpec (o v : Option ℚ) :
    ndChangeNumpyElem o v = ndRuleSpec o v := by
  rcases o with _ | o <;> rcases v with _ | v <;>
    simp only [ndChangeNumpyElem, ndRuleSpec, pdEqZero, pdNeZero,
      Option.isNone_none, Option.isNone_some, Bool.true_or, Bool.or_true,
      Bool.or_false, Bool.false_or, Bool.and_true, Bool.and_false,
      Bool.true_and, Bool.false_and, Bool.not_true, Bool.not_false, if_true,
      if_false] <;>
    try rfl
  by_cases ho : o = 0 <;> by_cases hv : v = 0 <;> simp [ho, hv]

/-- The vectorized masked assignments collapse to the cascade that returns `1`
whenever old is zero and the current value is not a present zero. -/
theorem ndChangeVecElem_eq_cascade (o v : Option ℚ) :
    ndChangeVecElem o v = changeCascade o v := by
  rcases o with _ | o <;> rcases v with _ | v <;>
    simp only [ndChangeVecElem, changeCascade, pdEqZero, pdNeZero,
      Option.isNone_none, Option.isNone_some, Bool.true_or, Bool.or_true,
      Bool.or_false, Bool.false_or, Bool.and_true, Bool.and_false,
      Bool.true_and, Bool.false_and, Bool.not_true, Bool.not_false, if_true,
      if_false] <;>
    try rfl
  · by_cases ho : o = 0 <;> simp [ho]
  · by_cases ho : o = 0 <;> by_cases hv : v = 0 <;> simp [ho, hv]

/-- The aligned combination step collapses to the same cascade after joining
the two levels of missingness (absent label and present `NaN`). -/
theorem combineChange_eq_cascade (o : Option (Option ℚ)) (v : Option ℚ) :
    combineChange o v = changeCascade o.join v := by
  rcases o with _ | o
  · rcases v with _ | v <;> rfl
  · rcases o with _ | o <;> rcases v with _ | v <;>
      simp only [combineChange, changeCascade, oldIsZero, oldIsNan, pdEqZero,
        pdNeZero, Option.join, Option.isNone_none, Option.isNone_some,
        Bool.true_or, Bool.or_true, Bool.or_false, Bool.false_or,
        Bool.and_true, Bool.and_false, Bool.true_and, Bool.false_and,
        Bool.not_true, Bool.not_false, if_true, if_false] <;>
      try rfl
    · by_cases ho : o = 0 <;> simp [ho]
    · by_cases ho : o = 0 <;> by_cases hv : v = 0 <;> simp [ho, hv]

/-! ### Claim theorems -/

/-- C1: `compute_nd_change(series, p)` with `p ≥ 1` returns a series of the
same length whose value at each position `i` is missing for `i < p`, and
otherwise is determined from `series[i-p]` and `series[i]` by the 4-rule
policy (missing if either is missing, `0` if both zero, `1` if old zero and
new nonzero, else `new/old - 1`, first match wins); in particular
`compute_nd_change([0, 0, 5, 0], 1) = [missing, 0, 1, -1]`. -/
theorem C1_nd_change_rule_spec (s : Series) (p : ℕ) (hp : 1 ≤ p) :
    (compute_nd_change s p).length = s.length ∧
    (∀ i, i < s.length →
      (compute_nd_change s p).getD i none =
        if i < p then none
        else ndRuleSpec (s.getD (i - p) none) (s.getD i none)) ∧
    compute_nd_change [some 0, some 0, some 5, some 0] 1 =
      [none, some 0, some 1, some (-1)] := by
  refine ⟨by simp [compute_nd_change], fun i hi => ?_, by
    norm_num [compute_nd_change, ndChangeElem, shiftOld, pdEqZero, pdNeZero,
      show List.range 4 = [0, 1, 2, 3] from rfl]
    simp_all⟩
  rw [compute_nd_change, getD_map_range _ _ hi, ndChangeElem_eq_ruleSpec]
  by_cases hip : i < p
  · rw [if_pos hip, shiftOld, if_neg (by omega)]
    rfl
  · rw [if_neg hip, shiftOld, if_pos (by omega)]

/-- C1 witness: the theorem applied at the concrete input `[0, 0, 5, 0]`,
`p = 1`, position `3` (old `5`, new `0`, rule 4 gives `-1`). -/
theorem C1_nd_change_rule_spec_witness :
    (compute_nd_change [some 0, some 0, some 5, some 0] 1).getD 3 none
      = some (-1) := by
  have h := (C1_nd_change_rule_spec [some 0, some 0, some 5, some 0] 1
    (by decide)).2.1 3 (by decide)
  simpa [ndRuleSpec] using h

/-- C2 (code bug): the masked and vectorized implementations diverge on
`series = [0, NaN]`, `periods = 1`: at position `1` the look-back value is `0`
and the current value is missing, `compute_nd_change` returns missing but
`compute_nd_change_vectorized` returns `1`, because its
`old_zero_new_nonzero` mask lacks the `~both_nan` guard and `NaN != 0`
evaluates to `True`, so the later masked assignment overwrites the `NaN`. -/
theorem C2_vectorized_diverges :
    compute_nd_change [some 0, none] 1 = [none, none] ∧
    compute_nd_change_vectorized [some 0, none] 1 = [none, some 1] ∧
    compute_nd_change [some 0, none] 1 ≠
      compute_nd_change_vectorized [some 0, none] 1 := by
  norm_num [compute_nd_change, compute_nd_change_vectorized, ndChangeElem,
    ndChangeVecElem, shiftOld, pdEqZero, pdNeZero,
    show List.range 2 = [0, 1] from rfl]
  simp_all

/-- C3 (code bug): a look-back value of `0` combined with a missing current
value yields `1`, not missing, in `compute_nd_change_vectorized` and in the
final combination step of `compute_moving_average_change` (here on the
irregular-index series `[(t=0h, 0), (t=24h, NaN)]` with a 1-hour moving
average and 24-hour change period), violating the priority of the
missing-propagation rule. -/
theorem C3_missing_propagation_violated :
    compute_nd_change_vectorized [some 0, none] 1 = [none, some 1] ∧
    compute_moving_average_change [(0, some 0), (24, none)] 1 24 none
      = [none, some 1] ∧
    compute_nd_change [some 0, none] 1 = [none, none] ∧
    compute_nd_change_numpy [some 0, none] 1 = [none, none] := by
  norm_num [compute_nd_change, compute_nd_change_vectorized,
    compute_nd_change_numpy, compute_moving_average_change,
    compute_moving_average, ndChangeElem, ndChangeVecElem, ndChangeNumpyElem,
    combineChange, oldIsZero, oldIsNan, shiftOld, pdEqZero, pdNeZero,
    List.find?, show List.range 2 = [0, 1] from rfl]
  simp_all

/-- C5 counterexample: on the irregular series `[(0h, 5), (25h, 7)]` with a
1-hour moving average and a 24-hour change period, the claimed
nearest-at-or-before lookup would compare `ma(25h) = 7` with `ma(0h) = 5` and
give `7/5 - 1 = 2/5`, but `compute_moving_average_change` looks up the index
timestamp `25h - 24h = 1h` exactly, finds nothing, and yields missing. -/
theorem C5_asof_counterexample :
    compute_moving_average_change [(0, some 5), (25, some 7)] 1 24 none
      = [none, none] ∧
    maChangeAsofClaim [(0, some 5), (25, some 7)] 1 24
      = [none, some (2 / 5)] ∧
    compute_moving_average_change [(0, some 5), (25, some 7)] 1 24 none ≠
      maChangeAsofClaim [(0, some 5), (25, some 7)] 1 24 := by
  norm_num [compute_moving_average_change, compute_moving_average,
    maChangeAsofClaim, asofLookup, ndRuleSpec, combineChange, oldIsZero,
    oldIsNan, pdEqZero, pdNeZero, List.find?,
    show List.range 2 = [0, 1] from rfl]
  simp_all
  norm_num

/-- C6 counterexample: on the constant series `[5, 5]` sampled hourly
(frequency 3600 s) with a 1-hour moving average and 24-hour change period the
positional look-back is 24 periods, no position has a valid look-back, and the
output is entirely missing — not zero at every position as claimed. -/
theorem C6_constant_counterexample :
    compute_moving_average_change [(0, some 5), (1, some 5)] 1 24 (some 3600)
      = [none, none] ∧
    (compute_moving_average_change [(0, some 5), (1, some 5)] 1 24
      (some 3600)).getD 0 none ≠ some 0 := by
  norm_num [compute_moving_average_change, compute_moving_average,
    combineChange, oldIsZero, oldIsNan, pdEqZero, pdNeZero,
    show List.range 2 = [0, 1] from rfl,
    show ((⌊(24 : ℚ) * 3600 / 3600⌋).toNat) = 24 by
      rw [show ⌊(24 : ℚ) * 3600 / 3600⌋ = 24 by norm_num]
      rfl]
  simp_all

theorem ndRuleSpec_none_left (v : Option ℚ) : ndRuleSpec none v = none := by
  cases v <;> rfl

theorem changeCascade_none_left (v : Option ℚ) : changeCascade none v = none := by
  cases v <;> rfl

/-- C7: when the look-back is at least the series length every output position
is missing, `compute_nd_change_numpy` returns an all-missing array of the same
length, and the empty input gives the empty output. -/
theorem C7_all_missing_when_lookback_exceeds (s : Series) (p : ℕ)
    (hp : s.length ≤ p) :
    (∀ x ∈ compute_nd_change s p, x = none) ∧
    (∀ x ∈ compute_nd_change_vectorized s p, x = none) ∧
    compute_nd_change_numpy s p = List.replicate s.length none ∧
    compute_nd_change_numpy [] p = [] := by
  have hshift : ∀ i ∈ List.range s.length, shiftOld s p i = none := by
    intro i hi
    have := List.mem_range.mp hi
    rw [shiftOld, if_neg (by omega)]
  refine ⟨?_, ?_, ?_, rfl⟩
  · intro x hx
    rcases List.mem_map.mp hx with ⟨i, hi, rfl⟩
    rw [hshift i hi, ndChangeElem_eq_ruleSpec, ndRuleSpec_none_left]
  · intro x hx
    rcases List.mem_map.mp hx with ⟨i, hi, rfl⟩
    rw [hshift i hi, ndChangeVecElem_eq_cascade, changeCascade_none_left]
  · rw [compute_nd_change_numpy]
    by_cases h0 : s.length = 0
    · rw [if_pos h0, h0]
      rfl
    · rw [if_neg h0, if_pos hp]

/-- C7 witness: a length-2 series with `p = 2` gives an all-missing array. -/
theorem C7_all_missing_witness :
    compute_nd_change_numpy [some 1, some 2] 2 = List.replicate 2 none :=
  (C7_all_missing_when_lookback_exceeds [some 1, some 2] 2 (by decide)).2.2.1

/-- Splitting a filter over a time window: if everything in the first `k`
positions is at or before `b` and everything after is past `b`, filtering the
prefix by `a < t` agrees with filtering the whole list by `a < t ∧ t ≤ b`. -/
theorem filter_window_split {α : Type} (l : List (ℚ × α)) (k : ℕ) (a b : ℚ)
    (htake : ∀ p ∈ l.take k, p.1 ≤ b) (hdrop : ∀ p ∈ l.drop k, b < p.1) :
    (l.take k).filter (fun p => decide (a < p.1)) =
    l.filter (fun p => decide (a < p.1 ∧ p.1 ≤ b)) := by
  conv_rhs => rw [← List.take_append_drop k l]
  have hnil : (l.drop k).filter (fun p => decide (a < p.1 ∧ p.1 ≤ b)) = [] :=
    List.filter_eq_nil_iff.mpr (fun p hp => by
      simp only [decide_eq_true_eq, not_and, not_le]
      exact fun _ => hdrop p hp)
  rw [List.filter_append, hnil, List.append_nil]
  exact List.filter_congr fun p hp =>
    decide_eq_decide.mpr (and_iff_left (htake p hp)).symm

/-- Strictly increasing timestamps: every element of the prefix up to `i` has
timestamp at most the one at `i`. -/
theorem pairwise_take_le {u : TSeries}
    (hmono : (u.map Prod.fst).Pairwise (· < ·)) {i : ℕ} (hi : i < u.length) :
    ∀ p ∈ u.take (i + 1), p.1 ≤ (u.get ⟨i, hi⟩).1 := by
  intro p hp
  obtain ⟨j, hj, hpj⟩ := List.mem_iff_getElem.mp hp
  have hjlen : j < u.length := by
    rw [List.length_take] at hj
    omega
  have hji : j ≤ i := by
    rw [List.length_take] at hj
    omega
  have hpj2 : p = u.get ⟨j, hjlen⟩ := by
    rw [← hpj, List.getElem_take]
    rfl
  rcases Nat.lt_or_ge j i with hlt | hge
  · have hmap := List.pairwise_iff_getElem.mp hmono j i
      (by simpa using hjlen) (by simpa using hi) hlt
    rw [List.getElem_map, List.getElem_map] at hmap
    rw [hpj2]
    exact le_of_lt hmap
  · have hjeq : j = i := by omega
    subst hjeq
    rw [hpj2]

/-- Strictly increasing timestamps: every element past position `i` has
timestamp strictly after the one at `i`. -/
theorem pairwise_drop_lt {u : TSeries}
    (hmono : (u.map Prod.fst).Pairwise (· < ·)) {i : ℕ} (hi : i < u.length) :
    ∀ p ∈ u.drop (i + 1), (u.get ⟨i, hi⟩).1 < p.1 := by
  intro p hp
  obtain ⟨m, hm, hpm⟩ := List.mem_iff_getElem.mp hp
  have hmlen : i + 1 + m < u.length := by
    rw [List.length_drop] at hm
    omega
  have hpm2 : p = u.get ⟨i + 1 + m, hmlen⟩ := by
    rw [← hpm, List.getElem_drop]
    rfl
  have hmap := List.pairwise_iff_getElem.mp hmono i (i + 1 + m)
    (by simpa using hi) (by simpa using hmlen) (by omega)
  rw [List.getElem_map, List.getElem_map] at hmap
  rw [hpm2]
  exact hmap

/-- C4: for strictly increasing timestamps, `compute_moving_average` keeps the
length/alignment of its input and its value at each position `i` is the mean
of the non-missing values whose timestamps lie in the half-open trailing
window `(t_i - hours, t_i]` anywhere in the series, or missing when fewer than
`min_periods` such values exist (the source defaults `min_periods` to 1 when
it is not supplied). -/
theorem C4_moving_average_spec (series : TSeries) (hours : ℚ) (min_periods : ℕ)
    (hmono : (series.map Prod.fst).Pairwise (· < ·)) :
    (compute_moving_average series hours min_periods).length = series.length ∧
    ∀ i, i < series.length →
      (compute_moving_average series hours min_periods).getD i none =
        maSpecAt series hours min_periods i := by
  refine ⟨by simp [compute_moving_average], fun i hi => ?_⟩
  have hti : series.getD i (0, none) = series.get ⟨i, hi⟩ := by
    rw [List.getD_eq_getElem?_getD, List.getElem?_eq_getElem hi]
    rfl
  rw [compute_moving_average, getD_map_range _ _ hi]
  simp only [maSpecAt, hti]
  rw [filter_window_split series (i + 1) ((series.get ⟨i, hi⟩).1 - hours)
    ((series.get ⟨i, hi⟩).1) (pairwise_take_le hmono hi)
    (pairwise_drop_lt hmono hi)]

/-- C4 witness: at position 1 of the irregularly chosen series
`[(0h, 1), (1h, 3)]` with a 1-hour window the rolling mean matches the
specification value. -/
theorem C4_moving_average_witness :
    (compute_moving_average [(0, some 1), (1, some 3)] 1 1).getD 1 none =
      maSpecAt [(0, some 1), (1, some 3)] 1 1 1 :=
  (C4_moving_average_spec [(0, some 1), (1, some 3)] 1 1
    (by norm_num [List.pairwise_cons])).2 1 (by norm_num)

theorem combineChange_self (m : Option ℚ) :
    combineChange (some m) m =
      match m with
      | none => none
      | some _ => some 0 := by
  rcases m with _ | x
  · rfl
  · rw [combineChange_eq_cascade]
    simp only [Option.join, changeCascade]
    by_cases hx : x = 0
    · simp [hx]
    · simp [hx, div_self hx]

/-- C10: with a fixed sampling interval `fs` seconds reported by the index and
a change period shorter than it, the positional look-back
`int(change_period_hours * 3600 / freq_seconds)` is `0` and
`compute_moving_average_change` compares each moving-average value with
itself: `0` wherever the moving average is non-missing, missing where it is
missing. -/
theorem C10_subinterval_change_period (series : TSeries) (hours c fs : ℚ)
    (i : ℕ) (hf : 0 < fs) (hc : 0 ≤ c) (hlt : c * 3600 < fs)
    (hi : i < series.length) :
    (⌊c * 3600 / fs⌋).toNat = 0 ∧
    (compute_moving_average_change series hours c (some fs)).getD i none =
      match (compute_moving_average series hours 1).getD i none with
      | none => none
      | some _ => some 0 := by
  have hper : ⌊c * 3600 / fs⌋ = 0 := by
    rw [Int.floor_eq_zero_iff]
    exact ⟨div_nonneg (by linarith) (le_of_lt hf), (div_lt_one hf).mpr hlt⟩
  have hma : (compute_moving_average series hours 1).length = series.length := by
    simp [compute_moving_average]
  refine ⟨by rw [hper]; rfl, ?_⟩
  simp only [compute_moving_average_change, hper, Int.toNat_zero]
  rw [getD_map_range _ _
    (show i < (compute_moving_average series hours 1).length by
      rw [hma]; exact hi)]
  rw [if_pos (Nat.zero_le i), Nat.sub_zero]
  exact combineChange_self _

/-- C10 witness: a single observation with a 2-hour sampling interval and a
1-hour change period yields `0`. -/
theorem C10_subinterval_witness :
    (compute_moving_average_change [(0, some 5)] 1 1 (some 7200)).getD 0 none
      = some 0 := by
  have h := (C10_subinterval_change_period [(0, some 5)] 1 1 7200 0
    (by norm_num) (by norm_num) (by norm_num) (by norm_num)).2
  rw [h, show (compute_moving_average [(0, some 5)] 1 1).getD 0 none = some 5 by
    norm_num [compute_moving_average, List.filterMap_cons,
      show List.range 1 = [0] from rfl]]

theorem changeCascade_self (x : ℚ) : changeCascade (some x) (some x) = some 0 := by
  by_cases hx : x = 0
  · simp [changeCascade, hx]
  · simp [changeCascade, hx, div_self hx]

/-- The aligned lookup performed by `ma.shift(freq=...)` followed by the
masked combination reads, after flattening, the value at exactly the shifted
timestamp. -/
theorem find_zip_join_eq_exactAt (ts : List ℚ) (vals : Series) (t : ℚ)
    (hlen : ts.length = vals.length) :
    (((ts.zip vals).find? fun p => decide (p.1 = t)).map Prod.snd).join =
      exactAt ts vals t := by
  induction ts generalizing vals with
  | nil => cases vals <;> rfl
  | cons t0 ts1 ih =>
    cases vals with
    | nil => simp at hlen
    | cons v0 vs1 =>
      rw [List.zip_cons_cons, List.find?_cons]
      by_cases h : t0 = t
      · simp [h, exactAt]
      · simp only [exactAt, if_neg h, decide_eq_true_eq, h]
        rw [if_neg (by simpa using h)]
        exact ih vs1 (by simpa using hlen)

theorem exactAt_not_mem (ts : List ℚ) (vals : Series) (t : ℚ) (h : t ∉ ts) :
    exactAt ts vals t = none := by
  induction ts generalizing vals with
  | nil => cases vals <;> rfl
  | cons t0 ts1 ih =>
    cases vals with
    | nil => rfl
    | cons v0 vs1 =>
      simp only [exactAt]
      rw [if_neg fun he => h (List.mem_cons.mpr (Or.inl he.symm))]
      exact ih vs1 fun hm => h (List.mem_cons_of_mem _ hm)

theorem exactAt_mem_const (v : ℚ) (ts : List ℚ) (vals : Series) (t : ℚ)
    (hlen : ts.length = vals.length) (hmem : t ∈ ts)
    (hv : ∀ x ∈ vals, x = some v) : exactAt ts vals t = some v := by
  induction ts generalizing vals with
  | nil => exact absurd hmem (List.not_mem_nil t)
  | cons t0 ts1 ih =>
    cases vals with
    | nil => simp at hlen
    | cons v0 vs1 =>
      simp only [exactAt]
      by_cases h0 : t0 = t
      · rw [if_pos h0]
        exact hv v0 (List.mem_cons_self v0 vs1)
      · rw [if_neg h0]
        refine ih vs1 (by simpa using hlen) ?_
          fun x hx => hv x (List.mem_cons_of_mem v0 hx)
        rcases List.mem_cons.mp hmem with he | hm
        · exact absurd he.symm h0
        · exact hm

/-- C5 amended: on an index without a fixed sampling frequency,
`compute_moving_average_change` obtains the old value at each timestamp `t` as
the moving-average value at exactly `t - changeWindowSpan` when that timestamp
is present in the index (missing otherwise) — not a nearest-at-or-before
lookup — and combines old and current values under the vectorized masked
policy, aligned to the input index. -/
theorem C5_amended_exact_lookup (series : TSeries) (hours c : ℚ) :
    compute_moving_average_change series hours c none =
      maChangeIrregularSpec series hours c := by
  have hmalen : (compute_moving_average series hours 1).length = series.length := by
    simp [compute_moving_average]
  simp only [compute_moving_average_change, maChangeIrregularSpec]
  rw [hmalen]
  refine List.map_congr_left fun i hi => ?_
  rw [combineChange_eq_cascade,
    find_zip_join_eq_exactAt _ _ _ (by simp [compute_moving_average])]

theorem filterMap_snd_const (v : ℚ) (l : TSeries)
    (h : ∀ p ∈ l, p.2 = some v) :
    l.filterMap Prod.snd = l.map fun _ => v := by
  induction l with
  | nil => rfl
  | cons p l ih =>
    have hp : p.2 = some v := h p (List.mem_cons_self p l)
    simp only [List.filterMap_cons, hp, List.map_cons]
    rw [ih fun q hq => h q (List.mem_cons_of_mem p hq)]

/-- Averaging a nonempty window of constant present values gives back the
constant. -/
theorem mean_const (l : TSeries) (v : ℚ) (hne : l ≠ [])
    (hconst : ∀ p ∈ l, p.2 = some v) :
    (if 1 ≤ (l.filterMap Prod.snd).length then
      some ((l.filterMap Prod.snd).sum / ((l.filterMap Prod.snd).length : ℚ))
    else none) = some v := by
  have h1 : l.filterMap Prod.snd = List.replicate l.length v := by
    rw [filterMap_snd_const v l hconst]
    exact List.map_const' l v
  have hpos : 0 < l.length := List.length_pos.mpr hne
  have hone : 1 ≤ l.length := hpos
  rw [h1, List.length_replicate, List.sum_replicate, if_pos hone]
  congr 1
  rw [nsmul_eq_mul]
  exact mul_div_cancel_left₀ v (Nat.cast_ne_zero.mpr (by omega))

/-- The moving average of a constant all-present series is that constant at
every position (positive window span). -/
theorem ma_const (series : TSeries) (v hours : ℚ) (hpos : 0 < hours)
    (hconst : ∀ p ∈ series, p.2 = some v) {i : ℕ} (hi : i < series.length) :
    (compute_moving_average series hours 1).getD i none = some v := by
  rw [compute_moving_average, getD_map_range _ _ hi]
  refine mean_const _ v ?_ fun p hp =>
    hconst p (List.take_subset (i + 1) series (List.mem_filter.mp hp).1)
  intro hempty
  have hmem : series.get ⟨i, hi⟩ ∈
      (series.take (i + 1)).filter
        (fun p => decide ((series.getD i (0, none)).1 - hours < p.1)) := by
    refine List.mem_filter.mpr ⟨?_, ?_⟩
    · refine List.mem_iff_getElem.mpr ⟨i, ?_, ?_⟩
      · rw [List.length_take]
        omega
      · rw [List.getElem_take]
        rfl
    · have hti : series.getD i (0, none) = series.get ⟨i, hi⟩ := by
        rw [List.getD_eq_getElem?_getD, List.getElem?_eq_getElem hi]
        rfl
      rw [hti, decide_eq_true_eq]
      exact sub_lt_self _ hpos
  rw [hempty] at hmem
  exact absurd hmem (List.not_mem_nil _)

/-- Every entry of the moving average of a constant all-present series is the
constant. -/
theorem ma_mem_const (series : TSeries) (v hours : ℚ) (hpos : 0 < hours)
    (hconst : ∀ p ∈ series, p.2 = some v) :
    ∀ x ∈ compute_moving_average series hours 1, x = some v := by
  intro x hx
  rcases List.mem_map.mp hx with ⟨j, hj, rfl⟩
  have hjlen := List.mem_range.mp hj
  have h := ma_const series v hours hpos hconst hjlen
  rw [compute_moving_average, getD_map_range _ _ hjlen] at h
  exact h

/-- C6 amended: for a nonempty constant all-present series with strictly
increasing timestamps and a positive moving-average window,
`compute_moving_average_change` is `0` exactly at the positions whose
look-back exists — `i ≥ periods` in the fixed-frequency branch, and
`t_i - changeWindowSpan` present in the index in the irregular branch — and
missing at every other position (so not, as claimed, zero everywhere). -/
theorem C6_constant_change_amended (series : TSeries) (v hours c : ℚ)
    (freq : Option ℚ) (i : ℕ) (hpos : 0 < hours)
    (hconst : ∀ p ∈ series, p.2 = some v)
    (hmono : (series.map Prod.fst).Pairwise (· < ·))
    (hi : i < series.length) :
    (compute_moving_average_change series hours c freq).getD i none =
      match freq with
      | some fs => if (⌊c * 3600 / fs⌋).toNat ≤ i then some 0 else none
      | none =>
        if (series.map Prod.fst).getD i 0 - c ∈ series.map Prod.fst
        then some 0 else none := by
  have hmalen : (compute_moving_average series hours 1).length = series.length := by
    simp [compute_moving_average]
  cases freq with
  | some fs =>
    simp only [compute_moving_average_change]
    rw [getD_map_range _ _
      (show i < (compute_moving_average series hours 1).length by
        rw [hmalen]; exact hi)]
    by_cases hpi : (⌊c * 3600 / fs⌋).toNat ≤ i
    · simp only [if_pos hpi]
      rw [ma_const series v hours hpos hconst (show i - _ < series.length by omega),
        ma_const series v hours hpos hconst hi]
      simpa using combineChange_self (some v)
    · simp only [if_neg hpi]
      rw [ma_const series v hours hpos hconst hi]
      rfl
  | none =>
    simp only [compute_moving_average_change]
    rw [getD_map_range _ _
      (show i < (compute_moving_average series hours 1).length by
        rw [hmalen]; exact hi)]
    rw [combineChange_eq_cascade,
      find_zip_join_eq_exactAt _ _ _ (by simp [compute_moving_average]),
      ma_const series v hours hpos hconst hi]
    by_cases hmem : (series.map Prod.fst).getD i 0 - c ∈ series.map Prod.fst
    · rw [if_pos hmem,
        exactAt_mem_const v _ _ _ (by simp [compute_moving_average]) hmem
          (ma_mem_const series v hours hpos hconst)]
      exact changeCascade_self v
    · rw [if_neg hmem, exactAt_not_mem _ _ _ hmem, changeCascade_none_left]

/-- C6 amended witness: the hourly constant series `[5, 5]` with a 24-hour
change period has look-back `24 > 0 = i`, so position 0 is missing. -/
theorem C6_constant_change_amended_witness :
    (compute_moving_average_change [(0, some 5), (1, some 5)] 1 24
      (some 3600)).getD 0 none = none := by
  have h := C6_constant_change_amended [(0, some 5), (1, some 5)] 5 1 24
    (some 3600) 0 (by norm_num)
    (by
      intro p hp
      simp only [List.mem_cons, List.not_mem_nil, or_false] at hp
      rcases hp with h | h <;> rw [h])
    (by norm_num [List.pairwise_cons]) (by norm_num)
  rw [h]
  show (if (⌊(24 : ℚ) * 3600 / 3600⌋).toNat ≤ 0 then some (0 : ℚ) else none)
    = none
  rw [if_neg (by
    rw [show ⌊(24 : ℚ) * 3600 / 3600⌋ = 24 by norm_num]
    decide)]

theorem take_eq_getD {α : Type} {l1 l2 : List α} {i j : ℕ}
    (h : l1.take (i + 1) = l2.take (i + 1)) (hj : j ≤ i) (d : α) :
    l1.getD j d = l2.getD j d := by
  have h1 : l1[j]? = (l1.take (i + 1))[j]? := by
    rw [List.getElem?_take, if_pos (by omega)]
  have h2 : l2[j]? = (l2.take (i + 1))[j]? := by
    rw [List.getElem?_take, if_pos (by omega)]
  rw [List.getD_eq_getElem?_getD, List.getD_eq_getElem?_getD, h1, h2, h]

theorem take_eq_lt_iff {α : Type} {l1 l2 : List α} {i : ℕ}
    (h : l1.take (i + 1) = l2.take (i + 1)) :
    i < l1.length ↔ i < l2.length := by
  have hl := congrArg List.length h
  rw [List.length_take, List.length_take] at hl
  omega

theorem take_eq_mono {α : Type} {l1 l2 : List α} {i j : ℕ}
    (h : l1.take (i + 1) = l2.take (i + 1)) (hj : j ≤ i) :
    l1.take (j + 1) = l2.take (j + 1) := by
  have := congrArg (List.take (j + 1)) h
  rwa [List.take_take, List.take_take, min_eq_left (by omega)] at this

theorem getD_map_range_of_ge {α : Type} (f : ℕ → α) (d : α) {n i : ℕ}
    (hi : n ≤ i) : ((List.range n).map f).getD i d = d :=
  getD_of_length_le _ _ (by simpa using hi)

theorem map_range_getElem? {α : Type} (f : ℕ → α) (n k : ℕ) :
    ((List.range n).map f)[k]? = if k < n then some (f k) else none := by
  by_cases hk : k < n
  · rw [if_pos hk, List.getElem?_map, List.getElem?_range hk]
    rfl
  · rw [if_neg hk, List.getElem?_eq_none (by simpa using Nat.le_of_not_lt hk)]

theorem shiftOld_take_eq {s1 s2 : Series} {i : ℕ} (p : ℕ)
    (h : s1.take (i + 1) = s2.take (i + 1)) :
    shiftOld s1 p i = shiftOld s2 p i := by
  rw [shiftOld, shiftOld]
  by_cases hp : p ≤ i
  · rw [if_pos hp, if_pos hp]
    exact take_eq_getD h (by omega) none
  · rw [if_neg hp, if_neg hp]

/-- The moving average is causal: its value at `i` depends only on the first
`i + 1` observations. -/
theorem ma_take_eq_getD (u1 u2 : TSeries) (hours : ℚ) (mp : ℕ) {i : ℕ}
    (h : u1.take (i + 1) = u2.take (i + 1)) :
    (compute_moving_average u1 hours mp).getD i none =
      (compute_moving_average u2 hours mp).getD i none := by
  by_cases h1 : i < u1.length
  · have h2 : i < u2.length := (take_eq_lt_iff h).mp h1
    rw [compute_moving_average, compute_moving_average,
      getD_map_range _ _ h1, getD_map_range _ _ h2,
      h, take_eq_getD h (le_refl i) (0, none)]
  · have h2 : ¬i < u2.length := fun hh => h1 ((take_eq_lt_iff h).mpr hh)
    rw [compute_moving_average, compute_moving_average,
      getD_map_range_of_ge _ _ (by omega), getD_map_range_of_ge _ _ (by omega)]

/-- Prefixes of the moving average agree when prefixes of the inputs agree. -/
theorem ma_take_eq (u1 u2 : TSeries) (hours : ℚ) (mp : ℕ) {i : ℕ}
    (h : u1.take (i + 1) = u2.take (i + 1)) :
    (compute_moving_average u1 hours mp).take (i + 1) =
      (compute_moving_average u2 hours mp).take (i + 1) := by
  apply List.ext_getElem?
  intro n
  rw [List.getElem?_take, List.getElem?_take]
  by_cases hn : n < i + 1
  · rw [if_pos hn, if_pos hn, compute_moving_average, compute_moving_average,
      map_range_getElem?, map_range_getElem?]
    have htn := take_eq_mono h (show n ≤ i by omega)
    by_cases hl1 : n < u1.length
    · have hl2 : n < u2.length := (take_eq_lt_iff htn).mp hl1
      rw [if_pos hl1, if_pos hl2, htn, take_eq_getD htn (le_refl n) (0, none)]
    · rw [if_neg hl1, if_neg fun hh => hl1 ((take_eq_lt_iff htn).mpr hh)]
  · rw [if_neg hn, if_neg hn]

theorem replicate_none_getD (n i : ℕ) :
    (List.replicate n (none : Option ℚ)).getD i none = none := by
  rw [List.getD_eq_getElem?_getD]
  by_cases h : i < n <;> simp [List.getElem?_replicate, h]

/-- One-position characterization of `compute_nd_change_numpy` across its
three branches. -/
theorem numpy_getD_char (s : Series) (p i : ℕ) :
    (compute_nd_change_numpy s p).getD i none =
      if p ≤ i ∧ i < s.length ∧ p < s.length then
        ndChangeNumpyElem (s.getD (i - p) none) (s.getD i none)
      else none := by
  rw [compute_nd_change_numpy]
  by_cases h0 : s.length = 0
  · rw [if_pos h0, if_neg (by omega)]
    cases i <;> rfl
  · rw [if_neg h0]
    by_cases hlp : s.length ≤ p
    · rw [if_pos hlp, if_neg (by omega)]
      exact replicate_none_getD _ _
    · rw [if_neg hlp]
      by_cases hi : i < s.length
      · rw [getD_map_range _ _ hi]
        by_cases hpi : p ≤ i
        · rw [if_pos ⟨hpi, hi, by omega⟩, shiftOld, if_pos hpi]
        · rw [if_neg (by tauto), shiftOld, if_neg hpi,
            ndChangeNumpyElem_eq_ruleSpec, ndRuleSpec_none_left]
      · rw [getD_map_range_of_ge _ _ (by omega), if_neg (by tauto)]

theorem map_fst_getD {u : TSeries} {i : ℕ} (hi : i < u.length) :
    (u.map Prod.fst).getD i 0 = (u.get ⟨i, hi⟩).1 := by
  rw [List.getD_eq_getElem?_getD, List.getElem?_map,
    List.getElem?_eq_getElem hi]
  rfl

theorem exactAt_append (a b : List ℚ) (c d : Series) (t : ℚ)
    (hlen : a.length = c.length) :
    exactAt (a ++ b) (c ++ d) t =
      if t ∈ a then exactAt a c t else exactAt b d t := by
  induction a generalizing c with
  | nil =>
    cases c with
    | nil => simp [List.not_mem_nil]
    | cons _ _ => simp at hlen
  | cons a0 a1 ih =>
    cases c with
    | nil => simp at hlen
    | cons c0 c1 =>
      simp only [List.cons_append, exactAt, List.mem_cons, List.append_eq]
      by_cases h0 : a0 = t
      · rw [if_pos h0, if_pos (Or.inl h0.symm), if_pos h0]
      · rw [if_neg h0, ih c1 (by simpa using hlen)]
        by_cases hm : t ∈ a1
        · rw [if_pos hm, if_pos (Or.inr hm), if_neg h0]
        · rw [if_neg hm, if_neg (by
            rintro (he | hm2)
            · exact h0 he.symm
            · exact hm hm2)]

/-- For strictly increasing timestamps and a look-up time at or before `t_i`,
the exact-timestamp look-up is decided entirely by the first `i + 1`
entries. -/
theorem exactAt_causal_split (u : TSeries) (ma : Series) (t : ℚ)
    (hmono : (u.map Prod.fst).Pairwise (· < ·)) {i : ℕ} (hi : i < u.length)
    (hlen : (u.map Prod.fst).length = ma.length)
    (ht : t ≤ (u.get ⟨i, hi⟩).1) :
    exactAt (u.map Prod.fst) ma t =
      if t ∈ (u.map Prod.fst).take (i + 1) then
        exactAt ((u.map Prod.fst).take (i + 1)) (ma.take (i + 1)) t
      else none := by
  conv_lhs =>
    rw [← List.take_append_drop (i + 1) (u.map Prod.fst),
      ← List.take_append_drop (i + 1) ma]
  rw [exactAt_append _ _ _ _ t
    (by rw [List.length_take, List.length_take, hlen])]
  by_cases hm : t ∈ (u.map Prod.fst).take (i + 1)
  · rw [if_pos hm, if_pos hm]
  · rw [if_neg hm, if_neg hm]
    apply exactAt_not_mem
    intro hdropmem
    rw [← List.map_drop] at hdropmem
    rcases List.mem_map.mp hdropmem with ⟨p, hp, hpt⟩
    have hlt := pairwise_drop_lt hmono hi p hp
    rw [hpt] at hlt
    exact absurd ht (not_le.mpr hlt)

/-- C8: every operation is causal.  If two inputs agree on their first `i + 1`
observations (in time order), all five operations produce the same output at
position `i` — future observations never influence earlier outputs.  The
moving-average operations additionally assume strictly increasing timestamps
and a nonnegative change period, matching their documented preconditions. -/
theorem C8_causality (s1 s2 : Series) (u1 u2 : TSeries) (p mp i : ℕ)
    (hours c : ℚ) (freq : Option ℚ)
    (hS : s1.take (i + 1) = s2.take (i + 1))
    (hT : u1.take (i + 1) = u2.take (i + 1))
    (hm1 : (u1.map Prod.fst).Pairwise (· < ·))
    (hm2 : (u2.map Prod.fst).Pairwise (· < ·))
    (hc : 0 ≤ c) :
    (compute_nd_change s1 p).getD i none =
      (compute_nd_change s2 p).getD i none ∧
    (compute_nd_change_vectorized s1 p).getD i none =
      (compute_nd_change_vectorized s2 p).getD i none ∧
    (compute_nd_change_numpy s1 p).getD i none =
      (compute_nd_change_numpy s2 p).getD i none ∧
    (compute_moving_average u1 hours mp).getD i none =
      (compute_moving_average u2 hours mp).getD i none ∧
    (compute_moving_average_change u1 hours c freq).getD i none =
      (compute_moving_average_change u2 hours c freq).getD i none := by
  have hnd : ∀ f : Option ℚ → Option ℚ → Option ℚ,
      ((List.range s1.length).map fun j =>
        f (shiftOld s1 p j) (s1.getD j none)).getD i none =
      ((List.range s2.length).map fun j =>
        f (shiftOld s2 p j) (s2.getD j none)).getD i none := by
    intro f
    by_cases h1 : i < s1.length
    · have h2 := (take_eq_lt_iff hS).mp h1
      rw [getD_map_range _ _ h1, getD_map_range _ _ h2, shiftOld_take_eq p hS,
        take_eq_getD hS (le_refl i) none]
    · have h2 : ¬i < s2.length := fun hh => h1 ((take_eq_lt_iff hS).mpr hh)
      rw [getD_map_range_of_ge _ _ (by omega), getD_map_range_of_ge _ _ (by omega)]
  refine ⟨hnd ndChangeElem, hnd ndChangeVecElem, ?_, ma_take_eq_getD u1 u2 hours mp hT, ?_⟩
  · have hcond : (p ≤ i ∧ i < s1.length ∧ p < s1.length) ↔
        (p ≤ i ∧ i < s2.length ∧ p < s2.length) := by
      have hiff : i < s1.length ↔ i < s2.length := take_eq_lt_iff hS
      constructor <;> rintro ⟨ha, hb, _⟩
      · exact ⟨ha, hiff.mp hb, by have := hiff.mp hb; omega⟩
      · exact ⟨ha, hiff.mpr hb, by have := hiff.mpr hb; omega⟩
    rw [numpy_getD_char, numpy_getD_char]
    by_cases hcnd : p ≤ i ∧ i < s1.length ∧ p < s1.length
    · rw [if_pos hcnd, if_pos (hcond.mp hcnd),
        take_eq_getD hS (by omega) none, take_eq_getD hS (le_refl i) none]
    · rw [if_neg hcnd, if_neg fun hh => hcnd (hcond.mpr hh)]
  · cases freq with
    | some fs =>
      simp only [compute_moving_average_change]
      by_cases h1 : i < u1.length
      · have h2 := (take_eq_lt_iff hT).mp h1
        rw [getD_map_range _ _
            (show i < (compute_moving_average u1 hours 1).length by
              simpa [compute_moving_average] using h1),
          getD_map_range _ _
            (show i < (compute_moving_average u2 hours 1).length by
              simpa [compute_moving_average] using h2)]
        congr 1
        · congr 1
          by_cases hpi : (⌊c * 3600 / fs⌋).toNat ≤ i
          · rw [if_pos hpi, if_pos hpi]
            exact ma_take_eq_getD u1 u2 hours 1 (take_eq_mono hT (by omega))
          · rw [if_neg hpi, if_neg hpi]
        · exact ma_take_eq_getD u1 u2 hours 1 hT
      · have h2 : ¬i < u2.length := fun hh => h1 ((take_eq_lt_iff hT).mpr hh)
        rw [getD_map_range_of_ge _ _ (by simp [compute_moving_average]; omega),
          getD_map_range_of_ge _ _ (by simp [compute_moving_average]; omega)]
    | none =>
      simp only [compute_moving_average_change]
      by_cases h1 : i < u1.length
      · have h2 := (take_eq_lt_iff hT).mp h1
        have htk : (u1.map Prod.fst).take (i + 1) =
            (u2.map Prod.fst).take (i + 1) := by
          rw [← List.map_take, ← List.map_take, hT]
        have hts : (u1.map Prod.fst).getD i 0 = (u2.map Prod.fst).getD i 0 :=
          take_eq_getD htk (le_refl i) 0
        rw [getD_map_range _ _
            (show i < (compute_moving_average u1 hours 1).length by
              simpa [compute_moving_average] using h1),
          getD_map_range _ _
            (show i < (compute_moving_average u2 hours 1).length by
              simpa [compute_moving_average] using h2),
          combineChange_eq_cascade, combineChange_eq_cascade,
          find_zip_join_eq_exactAt _ _ _ (by simp [compute_moving_average]),
          find_zip_join_eq_exactAt _ _ _ (by simp [compute_moving_average]),
          ma_take_eq_getD u1 u2 hours 1 hT, hts]
        congr 1
        rw [exactAt_causal_split u1 _ _ hm1 h1
            (by simp [compute_moving_average])
            (by
              rw [← hts, map_fst_getD h1]
              have := sub_le_self (u1.get ⟨i, h1⟩).1 hc
              linarith),
          exactAt_causal_split u2 _ _ hm2 h2
            (by simp [compute_moving_average])
            (by
              rw [map_fst_getD h2]
              have := sub_le_self (u2.get ⟨i, h2⟩).1 hc
              linarith),
          htk, ma_take_eq u1 u2 hours 1 hT]
      · have h2 : ¬i < u2.length := fun hh => h1 ((take_eq_lt_iff hT).mpr hh)
        rw [getD_map_range_of_ge _ _ (by simp [compute_moving_average]; omega),
          getD_map_range_of_ge _ _ (by simp [compute_moving_average]; omega)]

/-- C8 witness: extending a series with a future observation leaves the
moving-average-change value at position 1 unchanged. -/
theorem C8_causality_witness :
    (compute_moving_average_change [(0, some 1), (1, some 2)] 1 1 none).getD 1
        none =
      (compute_moving_average_change [(0, some 1), (1, some 2), (2, some 9)]
        1 1 none).getD 1 none :=
  (C8_causality [some 1, some 2] [some 1, some 2, some 3]
    [(0, some 1), (1, some 2)] [(0, some 1), (1, some 2), (2, some 9)]
    1 1 1 1 1 none rfl rfl
    (by norm_num [List.pairwise_cons]) (by norm_num [List.pairwise_cons])
    (by norm_num)).2.2.2.2

/-- C9 (code bug): `get_san_metric` issues
`int(np.ceil((end - start).days / iterate_over_days))` chunk requests of the
form `[start + L*i, min(end, start + L*(i+1) - 1)]`.  With `start = end` that
is zero requests (the claim requires at least one), and with
`end - start = 120` days and the default 120-day span the single request ends
at day 119, so the final day of the requested range is never fetched; with
`end - start = 121` the ranges behave as claimed. -/
theorem C9_chunking_diverges :
    chunkRanges 0 0 120 = [] ∧
    chunkRanges 0 120 120 = [(0, 119)] ∧
    chunkRanges 0 121 120 = [(0, 119), (120, 121)] := by
  have h2 : ⌈(121 : ℚ) / 120⌉ = 2 := by
    rw [Int.ceil_eq_iff] <;> norm_num
  refine ⟨?_, ?_, ?_⟩ <;>
    norm_num [chunkRanges, h2, min_def, show Int.toNat 2 = 2 from rfl,
      show List.range 2 = [0, 1] from rfl, show List.range 1 = [0] from rfl]

end SanSdk
